import Mathlib

/-!
# Verification of the stopwatch timing engine (src/script.js)

Shallow embedding of the timing engine and persistence gateway of the
stopwatch. Module-level mutable state (`startTime`, `elapsed`, `running`,
`laps`) becomes an explicit `TimerState` record threaded through the
operations; each call to the clock `performance.now()` becomes an explicit
`Int` argument `t` (milliseconds). Operations execute synchronously and
atomically, so all `now()` reads inside one operation return the same `t`.
DOM rendering, `requestAnimationFrame` bookkeeping (`rafId`) and the
`saveState()` side-effect calls are presentation glue with no effect on the
engine state and are not modelled.
-/

/-- The engine state: `startTime` (clock reading at last start/resume),
`elapsed` (accumulated ms while paused), `running`, and the cumulative
lap list, mirroring the module-level variables of src/script.js. -/
@[ext]
structure TimerState where
  startTime : Int
  elapsed : Int
  running : Bool
  laps : List Int
deriving DecidableEq, Repr

/-- The fresh state at process start: `startTime = 0`, `elapsed = 0`,
`running = false`, `laps = []` (src/script.js lines 12-15). -/
def initState : TimerState := ⟨0, 0, false, []⟩

/-- `currentElapsed()` (line 54-56):
`running ? (elapsed + (now() - startTime)) : elapsed`. -/
def currentElapsed (s : TimerState) (t : Int) : Int :=
  if s.running then s.elapsed + (t - s.startTime) else s.elapsed

/-- `start()` (lines 138-145): early return if running, else
`startTime = now(); running = true`. -/
def start (s : TimerState) (t : Int) : TimerState :=
  if s.running then s
  else { s with startTime := t, running := true }

/-- `pause()` (lines 147-157): early return if not running, else
`elapsed += (now() - startTime); running = false`. -/
def pause (s : TimerState) (t : Int) : TimerState :=
  if !s.running then s
  else { s with elapsed := s.elapsed + (t - s.startTime), running := false }

/-- `reset()` (lines 159-167): `if (running) pause();` then
`elapsed = 0; startTime = 0`. Laps are not touched. -/
def reset (s : TimerState) (t : Int) : TimerState :=
  let s1 := if s.running then pause s t else s
  { s1 with elapsed := 0, startTime := 0 }

/-- `lap()` (lines 169-176): early return if not running, else push
`currentElapsed()` onto `laps`. -/
def lap (s : TimerState) (t : Int) : TimerState :=
  if !s.running then s
  else { s with laps := s.laps ++ [currentElapsed s t] }

/-- `clearLaps()` (lines 178-183): `laps = []` unconditionally. -/
def clearLaps (s : TimerState) : TimerState :=
  { s with laps := [] }

/-- The five zero-argument engine commands the presentation layer can
invoke (buttons / keyboard shortcuts). -/
inductive Op where
  | start
  | pause
  | reset
  | lap
  | clearLaps
deriving DecidableEq, Repr

/-- Dispatch one command at clock reading `t`. -/
def applyOp (op : Op) (t : Int) (s : TimerState) : TimerState :=
  match op with
  | .start => start s t
  | .pause => pause s t
  | .reset => reset s t
  | .lap => lap s t
  | .clearLaps => clearLaps s

/-- Run a sequence of timestamped commands from state `s`. -/
def runOps (s : TimerState) : List (Op × Int) → TimerState
  | [] => s
  | (op, t) :: rest => runOps (applyOp op t s) rest

/-- A monotonic clock: the timestamps of a trace are non-decreasing. -/
def timesMono (trace : List (Op × Int)) : Prop :=
  (trace.map Prod.snd).Chain' (· ≤ ·)

instance (trace : List (Op × Int)) : Decidable (timesMono trace) :=
  inferInstanceAs (Decidable ((trace.map Prod.snd).Chain' (· ≤ ·)))

/-- The startup reconciliation block (src/script.js lines 213-217), run when
the loaded state has `running == true`:
`const drift = now() - (startTime || now()); startTime = now() - drift;`.
`startTime || now()` is `now()` when `startTime` is `0` (falsy), else
`startTime`. All `now()` reads in the block return the same `t`. -/
def reconcile (s : TimerState) (t : Int) : TimerState :=
  if s.running then
    let drift := t - (if s.startTime = 0 then t else s.startTime)
    { s with startTime := t - drift }
  else s

/-!
## Persistence gateway

`saveState()` serializes `{ startTime, elapsed, running, laps }` to the
single localStorage slot; `loadState()` reads it back. The slot content is
modelled at the granularity `JSON.parse` exposes to `loadState`: the slot
may be absent (`!raw`), hold a string that fails to parse (the `catch`
branch), or parse to a document in which each of the four fields may be
individually missing (`undefined`). -/

/-- A parsed persisted document: each field of the JSON object may be
absent. `running` is read through `!!`, `startTime`/`elapsed` through
`|| 0`, `laps` through an `Array.isArray` check. -/
structure PersistedDoc where
  startTime : Option Int
  elapsed : Option Int
  running : Option Bool
  laps : Option (List Int)
deriving DecidableEq, Repr

/-- What `loadState` finds in the storage slot. -/
inductive SlotContent where
  | absent
  | malformed
  | doc (d : PersistedDoc)
deriving DecidableEq, Repr

/-- JavaScript `x || 0` on a numeric-or-missing field: a missing field and
the falsy number `0` both give `0`; any other number is kept. -/
def jsOr0 (o : Option Int) : Int :=
  match o with
  | some n => if n = 0 then 0 else n
  | none => 0

/-- JavaScript `!!x` on a boolean-or-missing field. -/
def jsTruthy (o : Option Bool) : Bool :=
  match o with
  | some b => b
  | none => false

/-- `saveState()` (lines 20-27): writes all four fields. -/
def saveState (s : TimerState) : PersistedDoc :=
  ⟨some s.startTime, some s.elapsed, some s.running, some s.laps⟩

/-- `loadState()` (lines 29-39): `if (!raw) return;` leaves the prior state
`s0` untouched; a `JSON.parse` failure is caught and ignored, also leaving
`s0`; otherwise `startTime = s.startTime || 0; elapsed = s.elapsed || 0;
running = !!s.running; laps = Array.isArray(s.laps) ? s.laps : [];`.
Total: no branch raises to the caller. -/
def loadState (slot : SlotContent) (s0 : TimerState) : TimerState :=
  match slot with
  | .absent => s0
  | .malformed => s0
  | .doc d =>
      { s0 with
        startTime := jsOr0 d.startTime
        elapsed := jsOr0 d.elapsed
        running := jsTruthy d.running
        laps := d.laps.getD [] }

/-!
## Best/worst split computation -/

/-- Tail of the split list: each entry minus its predecessor, the
predecessor carried as `prev`. -/
def splitsAux (prev : Int) : List Int → List Int
  | [] => []
  | c :: rest => (c - prev) :: splitsAux c rest

/-- `list.map((cum, i) => i === 0 ? cum : (cum - list[i-1]))` (line 71):
the split list of a cumulative lap list — first entry is the first
cumulative value, after that successive differences. -/
def splitsOf : List Int → List Int
  | [] => []
  | c :: rest => c :: splitsAux c rest

/-- The `splits.forEach` scan (lines 72-76) with `best = 0, worst = 0`
accumulators: `s` is the whole split list being indexed, `rest` the part
not yet scanned, `i` the current index. Strict comparisons, so the first
occurrence of a minimal (maximal) split wins. -/
def bwGo (s : List Int) : List Int → Nat → Nat → Nat → Nat × Nat
  | [], _, best, worst => (best, worst)
  | v :: vs, i, best, worst =>
      bwGo s vs (i + 1)
        (if v < s.getD best 0 then i else best)
        (if v > s.getD worst 0 then i else worst)

/-- `bestWorstIndices(list)` (lines 69-78): `{best: -1, worst: -1}` when
fewer than 2 laps, else the indices found by the strict-comparison scan of
the split list. -/
def bestWorstIndices (list : List Int) : Int × Int :=
  if list.length < 2 then (-1, -1)
  else
    let s := splitsOf list
    let p := bwGo s s 0 0 0
    ((p.1 : Int), (p.2 : Int))

/-- The split at index `i` of a cumulative lap list, as the claims state
it: `laps[i] - laps[i-1]` for `i ≥ 1`, `laps[0]` for `i = 0`. -/
def splitVal (l : List Int) (i : Nat) : Int :=
  if i = 0 then l.getD 0 0 else l.getD i 0 - l.getD (i - 1) 0

/-!
## Claim theorems: engine operations -/

/-- C2: `currentElapsed()` is a pure query (a function of the state and the
clock only — it is a plain function here because the source mutates nothing
in it); it returns `elapsed` when not running and
`elapsed + (now() - startMoment)` when running. -/
theorem C2_currentElapsed_cases (s : TimerState) (t : Int) :
    (s.running = false → currentElapsed s t = s.elapsed) ∧
    (s.running = true → currentElapsed s t = s.elapsed + (t - s.startTime)) := by
  constructor <;> intro h <;> simp [currentElapsed, h]

theorem C2_currentElapsed_cases_witness :
    currentElapsed ⟨10, 7, false, []⟩ 50 = 7 ∧
    currentElapsed ⟨10, 7, true, []⟩ 50 = 7 + (50 - 10) :=
  ⟨(C2_currentElapsed_cases ⟨10, 7, false, []⟩ 50).1 rfl,
   (C2_currentElapsed_cases ⟨10, 7, true, []⟩ 50).2 rfl⟩

/-- C3: on a running state, `pause()` adds `now() - startMoment` to
`elapsed`, clears `running`, and afterwards `currentElapsed()` equals
`elapsed` at every later clock reading (it no longer advances). -/
theorem C3_pause_folds (s : TimerState) (t : Int) (h : s.running = true) :
    (pause s t).elapsed = s.elapsed + (t - s.startTime) ∧
    (pause s t).running = false ∧
    ∀ t' : Int, currentElapsed (pause s t) t' = (pause s t).elapsed := by
  refine ⟨?_, ?_, fun t' => ?_⟩ <;> simp [pause, h, currentElapsed]

theorem C3_pause_folds_witness :
    (pause ⟨10, 7, true, []⟩ 50).elapsed = 7 + (50 - 10) ∧
    (pause ⟨10, 7, true, []⟩ 50).running = false ∧
    currentElapsed (pause ⟨10, 7, true, []⟩ 50) 99 = (pause ⟨10, 7, true, []⟩ 50).elapsed :=
  ⟨(C3_pause_folds ⟨10, 7, true, []⟩ 50 rfl).1,
   (C3_pause_folds ⟨10, 7, true, []⟩ 50 rfl).2.1,
   (C3_pause_folds ⟨10, 7, true, []⟩ 50 rfl).2.2 99⟩

/-- C4: after `reset()`, whatever the prior state: `running = false`,
`elapsed = 0`, `startMoment = 0`, `currentElapsed() = 0` at every clock
reading, laps untouched; and on a running state `reset()` is the `pause()`
fold followed by zeroing. -/
theorem C4_reset_zeroes (s : TimerState) (t : Int) :
    (reset s t).running = false ∧
    (reset s t).elapsed = 0 ∧
    (reset s t).startTime = 0 ∧
    (reset s t).laps = s.laps ∧
    (∀ t' : Int, currentElapsed (reset s t) t' = 0) ∧
    (s.running = true → reset s t = { pause s t with elapsed := 0, startTime := 0 }) := by
  refine ⟨?_, ?_, ?_, ?_, fun t' => ?_, fun h => ?_⟩ <;>
    by_cases h' : s.running <;>
    simp_all [reset, pause, currentElapsed]

theorem C4_reset_zeroes_witness :
    (reset ⟨10, 7, true, [3, 4]⟩ 50).running = false ∧
    (reset ⟨10, 7, true, [3, 4]⟩ 50).elapsed = 0 ∧
    (reset ⟨10, 7, true, [3, 4]⟩ 50).startTime = 0 ∧
    (reset ⟨10, 7, true, [3, 4]⟩ 50).laps = [3, 4] ∧
    currentElapsed (reset ⟨10, 7, true, [3, 4]⟩ 50) 99 = 0 ∧
    reset ⟨10, 7, true, [3, 4]⟩ 50 =
      { pause ⟨10, 7, true, [3, 4]⟩ 50 with elapsed := 0, startTime := 0 } :=
  ⟨(C4_reset_zeroes ⟨10, 7, true, [3, 4]⟩ 50).1,
   (C4_reset_zeroes ⟨10, 7, true, [3, 4]⟩ 50).2.1,
   (C4_reset_zeroes ⟨10, 7, true, [3, 4]⟩ 50).2.2.1,
   (C4_reset_zeroes ⟨10, 7, true, [3, 4]⟩ 50).2.2.2.1,
   (C4_reset_zeroes ⟨10, 7, true, [3, 4]⟩ 50).2.2.2.2.1 99,
   (C4_reset_zeroes ⟨10, 7, true, [3, 4]⟩ 50).2.2.2.2.2 rfl⟩

/-- C6: `lap()` while paused, `start()` while running and `pause()` while
paused each return the state unchanged (early-return guards fire before any
mutation; all three are total, so no error is raised). -/
theorem C6_guard_noops (s : TimerState) (t : Int) :
    (s.running = false → lap s t = s) ∧
    (s.running = true → start s t = s) ∧
    (s.running = false → pause s t = s) := by
  refine ⟨fun h => ?_, fun h => ?_, fun h => ?_⟩ <;> simp [lap, start, pause, h]

theorem C6_guard_noops_witness :
    lap ⟨10, 7, false, [3]⟩ 50 = ⟨10, 7, false, [3]⟩ ∧
    start ⟨10, 7, true, [3]⟩ 50 = ⟨10, 7, true, [3]⟩ ∧
    pause ⟨10, 7, false, [3]⟩ 50 = ⟨10, 7, false, [3]⟩ :=
  ⟨(C6_guard_noops ⟨10, 7, false, [3]⟩ 50).1 rfl,
   (C6_guard_noops ⟨10, 7, true, [3]⟩ 50).2.1 rfl,
   (C6_guard_noops ⟨10, 7, false, [3]⟩ 50).2.2 rfl⟩

/-!
## Claim theorems: persistence and reconciliation -/

/-- C9: save-then-load round-trip. Loading the document written by
`saveState` reproduces the state field-for-field, whatever state the
loading process started in. -/
theorem C9_save_load_roundtrip (s s0 : TimerState) :
    loadState (.doc (saveState s)) s0 = s := by
  cases s with
  | mk st el r l =>
    simp only [loadState, saveState, jsOr0, jsTruthy, Option.getD]
    refine TimerState.ext ?_ ?_ ?_ ?_ <;> simp <;> omega

/-- C8: `loadState` is a total function (no branch raises): an absent slot
or a malformed (unparseable) slot leaves the startup state, which is the
default zeroed state; and each individually missing field of a parsed
document falls back to `0` / `0` / `false` / `[]`. -/
theorem C8_load_failsoft (slot : SlotContent) (d : PersistedDoc) :
    ((slot = SlotContent.absent ∨ slot = SlotContent.malformed) →
      loadState slot initState = initState) ∧
    initState = ⟨0, 0, false, []⟩ ∧
    (d.startTime = none → (loadState (.doc d) initState).startTime = 0) ∧
    (d.elapsed = none → (loadState (.doc d) initState).elapsed = 0) ∧
    (d.running = none → (loadState (.doc d) initState).running = false) ∧
    (d.laps = none → (loadState (.doc d) initState).laps = []) := by
  refine ⟨fun h => ?_, rfl, fun h => ?_, fun h => ?_, fun h => ?_, fun h => ?_⟩ <;>
    first
      | (rcases h with h | h <;> subst h <;> rfl)
      | simp [loadState, h, jsOr0, jsTruthy]

theorem C8_load_failsoft_witness :
    loadState SlotContent.absent initState = initState ∧
    (loadState (.doc ⟨none, none, none, none⟩) initState).startTime = 0 ∧
    (loadState (.doc ⟨none, none, none, none⟩) initState).elapsed = 0 ∧
    (loadState (.doc ⟨none, none, none, none⟩) initState).running = false ∧
    (loadState (.doc ⟨none, none, none, none⟩) initState).laps = [] :=
  ⟨(C8_load_failsoft SlotContent.absent ⟨none, none, none, none⟩).1 (Or.inl rfl),
   (C8_load_failsoft SlotContent.absent ⟨none, none, none, none⟩).2.2.1 rfl,
   (C8_load_failsoft SlotContent.absent ⟨none, none, none, none⟩).2.2.2.1 rfl,
   (C8_load_failsoft SlotContent.absent ⟨none, none, none, none⟩).2.2.2.2.1 rfl,
   (C8_load_failsoft SlotContent.absent ⟨none, none, none, none⟩).2.2.2.2.2 rfl⟩

/-- C10: the startup adjustment `drift = now() - startTime;
startTime = now() - drift` cancels: on a loaded running state with a
non-zero persisted `startMoment` it leaves `startMoment` (and `elapsed`)
unchanged, so `currentElapsed` afterwards is `elapsed + (t' - old
startMoment)`; only a persisted `startMoment` of `0` is replaced by
`now()`. -/
theorem C10_reconcile_identity (s : TimerState) (t t' : Int)
    (h : s.running = true) :
    (s.startTime ≠ 0 →
      (reconcile s t).startTime = s.startTime ∧
      (reconcile s t).elapsed = s.elapsed ∧
      currentElapsed (reconcile s t) t' = s.elapsed + (t' - s.startTime)) ∧
    (s.startTime = 0 → (reconcile s t).startTime = t) := by
  constructor <;> intro h0 <;> simp [reconcile, h, h0, currentElapsed]

theorem C10_reconcile_identity_witness :
    ((reconcile ⟨1000, 5000, true, []⟩ 0).startTime = 1000 ∧
     (reconcile ⟨1000, 5000, true, []⟩ 0).elapsed = 5000 ∧
     currentElapsed (reconcile ⟨1000, 5000, true, []⟩ 0) 250 = 5000 + (250 - 1000)) ∧
    (reconcile ⟨0, 5000, true, []⟩ 77).startTime = 77 :=
  ⟨(C10_reconcile_identity ⟨1000, 5000, true, []⟩ 0 250 rfl).1 (by decide),
   (C10_reconcile_identity ⟨0, 5000, true, []⟩ 77 250 rfl).2 rfl⟩

/-- C1 (code behaviour at the spec's own scenario): loading
`{running: true, elapsed: 5000, startMoment: 1000, laps: []}` into a new
process whose clock reads `0`, the reconciliation block leaves
`startMoment` at `1000` — it does not set it to `now()` — so
`currentElapsed()` immediately after load is `4000`, not the persisted
`5000` the claim requires. -/
theorem C1_reconcile_keeps_stale_startMoment :
    reconcile ⟨1000, 5000, true, []⟩ 0 = ⟨1000, 5000, true, []⟩ ∧
    currentElapsed (reconcile ⟨1000, 5000, true, []⟩ 0) 0 = 4000 ∧
    (4000 : Int) ≠ 5000 := by
  refine ⟨rfl, rfl, by decide⟩

/-!
## Laps monotonicity (C5) -/

/-- Within one process, `currentElapsed` is non-decreasing in the clock
reading. -/
theorem currentElapsed_mono (s : TimerState) {t t' : Int} (h : t ≤ t') :
    currentElapsed s t ≤ currentElapsed s t' := by
  unfold currentElapsed
  split <;> omega

/-- Invariant behind laps monotonicity, at clock reading `t`: the lap list
is a `≤`-chain and its last entry is at most the current elapsed time. -/
def LapsInv (s : TimerState) (t : Int) : Prop :=
  s.laps.Chain' (· ≤ ·) ∧ ∀ x ∈ s.laps.getLast?, x ≤ currentElapsed s t

theorem lapsInv_init (t : Int) : LapsInv initState t := by
  constructor <;> simp [initState]

theorem lapsInv_mono {s : TimerState} {t t' : Int} (h : t ≤ t') :
    LapsInv s t → LapsInv s t' :=
  fun hi => ⟨hi.1, fun x hx => le_trans (hi.2 x hx) (currentElapsed_mono s h)⟩

/-- Each engine command other than `reset` preserves the invariant at its
own clock reading: `start`/`pause` keep the value of `currentElapsed`
unchanged at the moment they run, `lap` appends that very value, and
`clearLaps` empties the list. -/
theorem lapsInv_applyOp {op : Op} (hop : op ≠ Op.reset) {s : TimerState}
    {t : Int} (h : LapsInv s t) : LapsInv (applyOp op t s) t := by
  obtain ⟨hc, hl⟩ := h
  cases op with
  | start =>
      by_cases hr : s.running
      · simpa [applyOp, start, hr] using ⟨hc, hl⟩
      · refine ⟨by simpa [applyOp, start, hr] using hc, fun x hx => ?_⟩
        have hx' : x ∈ s.laps.getLast? := by
          simpa [applyOp, start, hr] using hx
        have := hl x hx'
        simp only [applyOp, start, hr, if_false, currentElapsed] at this ⊢
        simp at this ⊢
        omega
  | pause =>
      by_cases hr : s.running
      · refine ⟨by simpa [applyOp, pause, hr] using hc, fun x hx => ?_⟩
        have hx' : x ∈ s.laps.getLast? := by
          simpa [applyOp, pause, hr] using hx
        have := hl x hx'
        simp only [applyOp, pause, hr, currentElapsed] at this ⊢
        simp [hr] at this ⊢
        omega
      · simpa [applyOp, pause, hr] using ⟨hc, hl⟩
  | reset => exact absurd rfl hop
  | lap =>
      by_cases hr : s.running
      · constructor
        · rw [show (applyOp Op.lap t s).laps = s.laps ++ [currentElapsed s t] by
            simp [applyOp, lap, hr]]
          rw [List.chain'_append]
          refine ⟨hc, List.chain'_singleton _, fun x hx y hy => ?_⟩
          simp only [List.head?_cons, Option.mem_def, Option.some.injEq] at hy
          subst hy
          exact hl x hx
        · intro x hx
          rw [show (applyOp Op.lap t s).laps = s.laps ++ [currentElapsed s t] by
            simp [applyOp, lap, hr]] at hx
          rw [List.getLast?_concat] at hx
          simp only [Option.mem_def, Option.some.injEq] at hx
          subst hx
          simp [applyOp, lap, hr, currentElapsed]
      · simpa [applyOp, lap, hr] using ⟨hc, hl⟩
  | clearLaps =>
      refine ⟨?_, ?_⟩ <;> simp [applyOp, clearLaps]

/-- Running a reset-free, time-monotone trace preserves the chain property
of the laps. -/
theorem lapsChain_runOps :
    ∀ (trace : List (Op × Int)) (s : TimerState) (t0 : Int),
      LapsInv s t0 →
      (t0 :: trace.map Prod.snd).Chain' (· ≤ ·) →
      (∀ p ∈ trace, p.1 ≠ Op.reset) →
      (runOps s trace).laps.Chain' (· ≤ ·)
  | [], s, t0, hi, _, _ => hi.1
  | (op, t) :: rest, s, t0, hi, hch, hnr => by
      have h01 : t0 ≤ t := (List.chain'_cons.mp (by simpa using hch)).1
      have hch' : (t :: rest.map Prod.snd).Chain' (· ≤ ·) :=
        (List.chain'_cons.mp (by simpa using hch)).2
      have hi' : LapsInv (applyOp op t s) t :=
        lapsInv_applyOp (hnr (op, t) (by simp)) (lapsInv_mono h01 hi)
      exact lapsChain_runOps rest (applyOp op t s) t hi' (by simpa using hch')
        (fun p hp => hnr p (by simp [hp]))

/-- C5 (amended): starting from the fresh state, any trace of engine
commands that contains no `reset`, run under a monotonic clock, leaves the
lap list non-decreasing: `laps[i] ≤ laps[i+1]` for every in-range `i`. -/
theorem C5_laps_nonDecreasing_without_reset (trace : List (Op × Int))
    (hmono : timesMono trace) (hnr : ∀ p ∈ trace, p.1 ≠ Op.reset) :
    ∀ i : Nat, i + 1 < (runOps initState trace).laps.length →
      (runOps initState trace).laps.getD i 0 ≤
        (runOps initState trace).laps.getD (i + 1) 0 := by
  have hch : (runOps initState trace).laps.Chain' (· ≤ ·) := by
    cases trace with
    | nil => simp [runOps, initState]
    | cons p rest =>
        refine lapsChain_runOps (p :: rest) initState p.2 (lapsInv_init p.2)
          ?_ hnr
        simp only [List.map_cons]
        exact List.chain'_cons.mpr ⟨le_refl _, by simpa [timesMono] using hmono⟩
  intro i hi
  have hstep := List.chain'_iff_get.mp hch i (by omega)
  rw [List.getD_eq_getElem _ _ (by omega), List.getD_eq_getElem _ _ hi]
  simpa [List.get_eq_getElem] using hstep

theorem C5_laps_nonDecreasing_without_reset_witness :
    (runOps initState [(Op.start, 0), (Op.lap, 1000), (Op.lap, 1500)]).laps.getD 0 0 ≤
      (runOps initState [(Op.start, 0), (Op.lap, 1000), (Op.lap, 1500)]).laps.getD 1 0 :=
  C5_laps_nonDecreasing_without_reset [(Op.start, 0), (Op.lap, 1000), (Op.lap, 1500)]
    (by simp [timesMono, List.chain'_cons, List.chain'_singleton]) (by decide) 0 (by decide)

/-- A trace showing the original claim fails: lap at 1000, `reset` (which
zeroes `elapsed` but keeps the recorded lap), start again, lap shortly
after — the second lap is 100, below the first lap's 1000. -/
def resetLapTrace : List (Op × Int) :=
  [(Op.start, 0), (Op.lap, 1000), (Op.reset, 1000), (Op.start, 2000), (Op.lap, 2100)]

/-- C5 counterexample: under a monotonic clock, a trace of engine commands
(with a `reset` between two `lap`s) reaches a state whose lap list
`[1000, 100]` is decreasing, refuting the claimed invariant. -/
theorem C5_counterexample_reset_breaks_laps_order :
    timesMono resetLapTrace ∧
    (runOps initState resetLapTrace).laps = [1000, 100] ∧
    ¬ (∀ i : Nat, i + 1 < (runOps initState resetLapTrace).laps.length →
        (runOps initState resetLapTrace).laps.getD i 0 ≤
          (runOps initState resetLapTrace).laps.getD (i + 1) 0) := by
  refine ⟨by simp [timesMono, resetLapTrace, List.chain'_cons, List.chain'_singleton],
    by decide, fun h => absurd (h 0 (by decide)) (by decide)⟩

/-!
## Best/worst split (C7) -/

theorem splitsAux_length (p : Int) : ∀ l : List Int, (splitsAux p l).length = l.length
  | [] => rfl
  | c :: rest => by simp [splitsAux, splitsAux_length c rest]

theorem splitsOf_length : ∀ l : List Int, (splitsOf l).length = l.length
  | [] => rfl
  | c :: rest => by simp [splitsOf, splitsAux_length]

theorem splitsAux_getD :
    ∀ (l : List Int) (p : Int) (i : Nat), i < l.length →
      (splitsAux p l).getD i 0 =
        l.getD i 0 - (if i = 0 then p else l.getD (i - 1) 0)
  | [], _, i, hi => by simp at hi
  | c :: rest, p, 0, _ => by simp [splitsAux]
  | c :: rest, p, j + 1, hi => by
      have hj : j < rest.length := by simpa using hi
      have ih := splitsAux_getD rest c j hj
      cases j with
      | zero => simpa [splitsAux] using ih
      | succ k => simpa [splitsAux] using ih

/-- Entry `i` of the source's split list is the split the claim describes:
`laps[i] - laps[i-1]` for `i ≥ 1`, `laps[0]` for `i = 0`. -/
theorem splitsOf_getD (l : List Int) (i : Nat) (hi : i < l.length) :
    (splitsOf l).getD i 0 = splitVal l i := by
  cases l with
  | nil => simp at hi
  | cons c rest =>
      cases i with
      | zero => simp [splitsOf, splitVal]
      | succ j =>
          have hj : j < rest.length := by simpa using hi
          have h := splitsAux_getD rest c j hj
          cases j with
          | zero => simpa [splitsOf, splitVal] using h
          | succ k => simpa [splitsOf, splitVal] using h

/-- `b` is the position of the first minimum of `s` (ties broken towards
the lowest index). -/
def IsFirstMin (s : List Int) (b : Nat) : Prop :=
  b < s.length ∧ (∀ j < s.length, s.getD b 0 ≤ s.getD j 0) ∧
    ∀ j < b, s.getD b 0 < s.getD j 0

/-- `w` is the position of the first maximum of `s`. -/
def IsFirstMax (s : List Int) (w : Nat) : Prop :=
  w < s.length ∧ (∀ j < s.length, s.getD j 0 ≤ s.getD w 0) ∧
    ∀ j < w, s.getD j 0 < s.getD w 0

/-- Loop invariant of the `forEach` scan: if, having consumed the first `i`
entries of the split list `s`, `best`/`worst` point at the first minimum /
first maximum of those entries, then the finished scan points at the first
minimum / first maximum of all of `s`. -/
theorem bwGo_spec (s rest : List Int) :
    ∀ i best worst : Nat,
      s.drop i = rest → i ≤ s.length → 1 ≤ i →
      best < i → (∀ j < i, s.getD best 0 ≤ s.getD j 0) →
      (∀ j < best, s.getD best 0 < s.getD j 0) →
      worst < i → (∀ j < i, s.getD j 0 ≤ s.getD worst 0) →
      (∀ j < worst, s.getD j 0 < s.getD worst 0) →
      IsFirstMin s (bwGo s rest i best worst).1 ∧
        IsFirstMax s (bwGo s rest i best worst).2 := by
  induction rest with
  | nil =>
      intro i best worst hdrop hile _ hb hbmin hbfirst hw hwmax hwfirst
      have hlen : s.length ≤ i := List.drop_eq_nil_iff.mp hdrop
      have hieq : i = s.length := le_antisymm hile hlen
      subst hieq
      exact ⟨⟨hb, hbmin, hbfirst⟩, ⟨hw, hwmax, hwfirst⟩⟩
  | cons v vs ih =>
      intro i best worst hdrop hile h1i hb hbmin hbfirst hw hwmax hwfirst
      have hi : i < s.length := by
        rcases Nat.lt_or_ge i s.length with h | h
        · exact h
        · rw [List.drop_eq_nil_iff.mpr h] at hdrop
          exact absurd hdrop (by simp)
      have hcons : s[i] :: s.drop (i + 1) = v :: vs :=
        (List.getElem_cons_drop s i hi).trans hdrop
      have hv : s.getD i 0 = v := by
        rw [List.getD_eq_getElem s 0 hi]
        exact (List.cons.injEq _ _ _ _ ▸ hcons).1
      have hvs : s.drop (i + 1) = vs := (List.cons.injEq _ _ _ _ ▸ hcons).2
      show IsFirstMin s (bwGo s (v :: vs) i best worst).1 ∧
        IsFirstMax s (bwGo s (v :: vs) i best worst).2
      rw [show bwGo s (v :: vs) i best worst =
            bwGo s vs (i + 1) (if v < s.getD best 0 then i else best)
              (if v > s.getD worst 0 then i else worst) from rfl]
      refine ih (i + 1) _ _ hvs hi (by omega) ?_ ?_ ?_ ?_ ?_ ?_
      · split <;> omega
      · intro j hj
        by_cases hlt : v < s.getD best 0
        · rw [if_pos hlt]
          rcases Nat.lt_succ_iff_lt_or_eq.mp hj with hj' | hj'
          · exact hv ▸ le_of_lt (lt_of_lt_of_le hlt (hbmin j hj'))
          · subst hj'; exact le_refl _
        · rw [if_neg hlt]
          rcases Nat.lt_succ_iff_lt_or_eq.mp hj with hj' | hj'
          · exact hbmin j hj'
          · subst hj'; rw [hv]; omega
      · intro j hj
        by_cases hlt : v < s.getD best 0
        · rw [if_pos hlt] at hj ⊢
          exact hv ▸ lt_of_lt_of_le hlt (hbmin j hj)
        · rw [if_neg hlt] at hj ⊢
          exact hbfirst j hj
      · split <;> omega
      · intro j hj
        by_cases hgt : v > s.getD worst 0
        · rw [if_pos hgt]
          rcases Nat.lt_succ_iff_lt_or_eq.mp hj with hj' | hj'
          · exact hv ▸ le_of_lt (lt_of_le_of_lt (hwmax j hj') hgt)
          · subst hj'; exact le_refl _
        · rw [if_neg hgt]
          rcases Nat.lt_succ_iff_lt_or_eq.mp hj with hj' | hj'
          · exact hwmax j hj'
          · subst hj'; rw [hv]; omega
      · intro j hj
        by_cases hgt : v > s.getD worst 0
        · rw [if_pos hgt] at hj ⊢
          exact hv ▸ lt_of_le_of_lt (hwmax j hj) hgt
        · rw [if_neg hgt] at hj ⊢
          exact hwfirst j hj

/-- The first loop iteration (`i = 0` against `best = worst = 0`) compares
the first split with itself, so both accumulators stay `0`. -/
theorem bwGo_start (s : List Int) (x : Int) (xs : List Int) (h : s = x :: xs) :
    bwGo s s 0 0 0 = bwGo s xs 1 0 0 := by
  subst h
  show bwGo (x :: xs) xs 1 (if x < (x :: xs).getD 0 0 then 0 else 0)
      (if x > (x :: xs).getD 0 0 then 0 else 0) = bwGo (x :: xs) xs 1 0 0
  simp

/-- C7: `bestWorstIndices` returns the `-1` sentinels on fewer than two
laps; otherwise it returns (as non-negative integers) the index of the
minimal split and the index of the maximal split — `splitVal l i` being
`laps[i] - laps[i-1]` for `i ≥ 1` and `laps[0]` for `i = 0` — and on ties
the lowest index wins: every earlier split is strictly worse. -/
theorem C7_bestWorstIndices_spec (l : List Int) :
    (l.length < 2 → bestWorstIndices l = (-1, -1)) ∧
    (2 ≤ l.length →
      (bestWorstIndices l).1 = (((bestWorstIndices l).1.toNat : Nat) : Int) ∧
      (bestWorstIndices l).2 = (((bestWorstIndices l).2.toNat : Nat) : Int) ∧
      (bestWorstIndices l).1.toNat < l.length ∧
      (bestWorstIndices l).2.toNat < l.length ∧
      (∀ j < l.length, splitVal l (bestWorstIndices l).1.toNat ≤ splitVal l j) ∧
      (∀ j < (bestWorstIndices l).1.toNat,
        splitVal l (bestWorstIndices l).1.toNat < splitVal l j) ∧
      (∀ j < l.length, splitVal l j ≤ splitVal l (bestWorstIndices l).2.toNat) ∧
      (∀ j < (bestWorstIndices l).2.toNat,
        splitVal l j < splitVal l (bestWorstIndices l).2.toNat)) := by
  constructor
  · intro h
    simp [bestWorstIndices, h]
  · intro h
    have hnlt : ¬ l.length < 2 := by omega
    have hslen : (splitsOf l).length = l.length := splitsOf_length l
    obtain ⟨x, xs, hx⟩ : ∃ x xs, splitsOf l = x :: xs := by
      cases hs : splitsOf l with
      | nil => rw [hs] at hslen; simp at hslen; omega
      | cons a as => exact ⟨a, as, rfl⟩
    have hbw : bestWorstIndices l =
        (((bwGo (splitsOf l) xs 1 0 0).1 : Int),
          ((bwGo (splitsOf l) xs 1 0 0).2 : Int)) := by
      simp only [bestWorstIndices, if_neg hnlt]
      rw [bwGo_start (splitsOf l) x xs hx]
    have hspec := bwGo_spec (splitsOf l) xs 1 0 0
      (by rw [hx]; rfl)
      (by omega)
      (le_refl 1)
      (by omega)
      (fun j hj => by
        have : j = 0 := by omega
        subst this; exact le_refl _)
      (fun j hj => absurd hj (by omega))
      (by omega)
      (fun j hj => by
        have : j = 0 := by omega
        subst this; exact le_refl _)
      (fun j hj => absurd hj (by omega))
    obtain ⟨⟨hbS, hbmin, hbfirst⟩, hwS, hwmax, hwfirst⟩ := hspec
    have hb1 : (bestWorstIndices l).1 = ((bwGo (splitsOf l) xs 1 0 0).1 : Int) := by
      rw [hbw]
    have hb2 : (bestWorstIndices l).2 = ((bwGo (splitsOf l) xs 1 0 0).2 : Int) := by
      rw [hbw]
    have htn1 : (bestWorstIndices l).1.toNat = (bwGo (splitsOf l) xs 1 0 0).1 := by
      rw [hb1]; exact Int.toNat_natCast _
    have htn2 : (bestWorstIndices l).2.toNat = (bwGo (splitsOf l) xs 1 0 0).2 := by
      rw [hb2]; exact Int.toNat_natCast _
    refine ⟨by rw [hb1, Int.toNat_natCast], by rw [hb2, Int.toNat_natCast],
      ?_, ?_, ?_, ?_, ?_, ?_⟩
    · rw [htn1]; omega
    · rw [htn2]; omega
    · intro j hj
      rw [htn1, ← splitsOf_getD l _ (by omega), ← splitsOf_getD l j (by omega)]
      exact hbmin j (by omega)
    · intro j hj
      rw [htn1] at hj ⊢
      rw [← splitsOf_getD l _ (by omega), ← splitsOf_getD l j (by omega)]
      exact hbfirst j hj
    · intro j hj
      rw [htn2, ← splitsOf_getD l j (by omega),
        ← splitsOf_getD l ((bwGo (splitsOf l) xs 1 0 0).2) (by omega)]
      exact hwmax j (by omega)
    · intro j hj
      rw [htn2] at hj ⊢
      rw [← splitsOf_getD l j (by omega),
        ← splitsOf_getD l ((bwGo (splitsOf l) xs 1 0 0).2) (by omega)]
      exact hwfirst j hj

theorem C7_bestWorstIndices_spec_witness :
    bestWorstIndices [5] = (-1, -1) ∧
    bestWorstIndices [5, 3, 10] = (1, 2) ∧
    splitVal [5, 3, 10] 1 ≤ splitVal [5, 3, 10] 0 ∧
    splitVal [5, 3, 10] 0 < splitVal [5, 3, 10] 2 := by
  refine ⟨(C7_bestWorstIndices_spec [5]).1 (by decide), rfl, ?_, ?_⟩
  · exact ((C7_bestWorstIndices_spec [5, 3, 10]).2 (by decide)).2.2.2.2.1 0 (by decide)
  · exact ((C7_bestWorstIndices_spec [5, 3, 10]).2 (by decide)).2.2.2.2.2.2.2 0 (by decide)
